import Mathlib

/-!
Verification of the `vscode-explicit-folding` repository against its
natural-language specification.

The repository's `src/src/extension.ts` contains the editor-integration glue
(provider registration, configuration merging, deprecation warnings); it is
embedded directly in the `Extension` namespace below.  The rule-driven
matching engine itself (`FoldingProvider`, `./config`) is not part of the
shown sources, so the engine is modelled from the specification in the
`ExplicitFolding` namespace: rules with begin/end regular-expression
delimiters, consecutive-line rules and indentation (off-side) rules, a
line-by-line scanner producing open/close events, and a range assembler that
clips, filters zero-height folds, de-duplicates and sorts.
-/

namespace ExplicitFolding

/-- Kind of an emitted folding range: plain region or comment. -/
inductive RangeKind where
  | region
  | comment
deriving DecidableEq, Repr

/-- Modelled from the spec: a folding range is a start line, an end line and
a kind; the invariants (`start_line < end_line`, bounded by the document)
are established by the range assembler. -/
structure FoldingRange where
  startLine : Nat
  endLine : Nat
  kind : RangeKind
deriving DecidableEq, Repr

/-- Modelled from the spec: a close event of the matching engine, pairing an
open entry's start line with the line on which the region closed.  When
`keepLastLine` is false the assembler excludes the delimiter line
(`fold_last_line` semantics); consecutive and off-side rules emit their span
directly and always set it to true. -/
structure FoldEvent where
  startLine : Nat
  closeLine : Nat
  keepLastLine : Bool
  kind : RangeKind
deriving DecidableEq, Repr

/-- Modelled from the spec: a configured regular expression is either one
that compiled to a per-line matcher, or a malformed pattern (`PatternError`);
patterns are anchored per-line and never match across a newline, so a
compiled pattern is modelled as a predicate on one line of text. -/
inductive RawPattern where
  | valid (matchLine : String → Bool)
  | malformed

/-- The rule variants of the spec's data model that the claims quantify
over: begin/end pairs, consecutive-line rules, and off-side (indentation)
rules. -/
inductive RuleKind where
  | begin_end
  | consecutive
  | off_side
deriving DecidableEq

/-- Modelled from the spec: one folding rule of the Rule Model.  The
`strict` flag only governs same-line open/close collapse; at line
granularity a same-line open/close always yields a zero-height fold, which
the assembler suppresses in every case (spec section 9 resolves this
precedence), so `strict` does not further change the output. -/
structure Rule where
  kind : RuleKind
  beginPattern : RawPattern
  endPattern : RawPattern
  strict : Bool
  foldLastLine : Bool
  rangeKind : RangeKind

/-- Compiling a raw pattern fails exactly on malformed patterns. -/
def compilePattern : RawPattern → Option (String → Bool)
  | .valid m => some m
  | .malformed => none

/-- Whether a raw pattern is malformed. -/
def patternMalformed : RawPattern → Bool
  | .valid _ => false
  | .malformed => true

/-- A rule is malformed when one of the regular expressions it actually
uses fails to compile; off-side rules use no pattern. -/
def ruleMalformed (r : Rule) : Bool :=
  match r.kind with
  | .begin_end => patternMalformed r.beginPattern || patternMalformed r.endPattern
  | .consecutive => patternMalformed r.beginPattern
  | .off_side => false

/-- A compiled begin/end rule. -/
structure CompiledBE where
  beginMatch : String → Bool
  endMatch : String → Bool
  foldLastLine : Bool
  rangeKind : RangeKind

/-- A compiled consecutive-line rule. -/
structure CompiledConsec where
  beginMatch : String → Bool
  rangeKind : RangeKind

/-- Compile a rule as a begin/end rule; a malformed pattern makes the rule
be skipped (spec: a `PatternError` drops that single rule only). -/
def compileBE (r : Rule) : Option CompiledBE :=
  match r.kind with
  | .begin_end =>
    match compilePattern r.beginPattern, compilePattern r.endPattern with
    | some b, some e => some ⟨b, e, r.foldLastLine, r.rangeKind⟩
    | _, _ => none
  | _ => none

/-- Compile a rule as a consecutive-line rule. -/
def compileConsec (r : Rule) : Option CompiledConsec :=
  match r.kind with
  | .consecutive =>
    match compilePattern r.beginPattern with
    | some b => some ⟨b, r.rangeKind⟩
    | none => none
  | _ => none

/-- Compile a rule as an off-side rule (only its range kind is needed). -/
def compileOff (r : Rule) : Option RangeKind :=
  match r.kind with
  | .off_side => some r.rangeKind
  | _ => none

/-- The document line at index `k` (out of range reads the empty line). -/
def lineAt (lines : List String) (k : Nat) : String :=
  lines.getD k ""

/-- Index of the document's last line. -/
def lastLineIndex (lines : List String) : Nat :=
  lines.length - 1

/-- An open entry of the scanning stack: the compiled rule that opened and
its start line. -/
structure OpenEntry where
  rule : CompiledBE
  startLine : Nat

/-- Find the first element satisfying `p` and return it together with the
list with that one element removed (used for innermost-first end matching
on the open stack). -/
def findRemove (p : α → Bool) : List α → Option (α × List α)
  | [] => none
  | x :: xs =>
    if p x then some (x, xs)
    else
      match findRemove p xs with
      | some (y, ys) => some (y, x :: ys)
      | none => none

/-- Modelled from the spec: the line-by-line scanner for begin/end rules.
At line `i` (with `n` lines remaining) it first tests every rule's begin
pattern in rule-set order and pushes an open entry for the first match,
then tests end patterns against the open entries innermost-first, popping
the first entry whose end pattern matches and emitting a close event.  A
begin and end on the same line produce a zero-height event that the
assembler later suppresses.  At end of document the remaining open entries
are discarded without an event (unbalanced opens never fold). -/
def beginEndScan (rules : List CompiledBE) (lines : List String) :
    Nat → Nat → List OpenEntry → List FoldEvent
  | _, 0, _ => []
  | i, n+1, stack =>
    let line := lineAt lines i
    let stack1 :=
      match rules.find? (fun r => r.beginMatch line) with
      | some r => ⟨r, i⟩ :: stack
      | none => stack
    match findRemove (fun en => en.rule.endMatch line) stack1 with
    | some (en, stack2) =>
      ⟨en.startLine, i, en.rule.foldLastLine, en.rule.rangeKind⟩ ::
        beginEndScan rules lines (i+1) n stack2
    | none => beginEndScan rules lines (i+1) n stack1

/-- Close the current consecutive run (which covers lines `s .. i-1` when
the state is `some s`), emitting its span only when it is at least two
lines long. -/
def consecFlush (i : Nat) : Option Nat → List (Nat × Nat)
  | some s => if s + 1 < i then [(s, i - 1)] else []
  | none => []

/-- Modelled from the spec: the scanner for one consecutive-line rule.  The
state `run = some s` records that lines `s .. i-1` all matched the begin
pattern; a matching line extends the run, a non-matching line (or end of
document) closes it, and a span is emitted only for runs of length at least
two, covering exactly the first to the last matched line. -/
def consecScanAux (m : String → Bool) (lines : List String) :
    Nat → Nat → Option Nat → List (Nat × Nat)
  | i, 0, run => consecFlush i run
  | i, n+1, run =>
    if m (lineAt lines i) then
      consecScanAux m lines (i+1) n (some (run.getD i))
    else
      consecFlush i run ++ consecScanAux m lines (i+1) n none

/-- The close events of one consecutive rule over a document. -/
def consecEvents (c : CompiledConsec) (lines : List String) : List FoldEvent :=
  (consecScanAux c.beginMatch lines 0 lines.length none).map
    (fun p => ⟨p.1, p.2, true, c.rangeKind⟩)

/-- Leading-whitespace width of a line. -/
def indentWidth (s : String) : Nat :=
  (s.takeWhile (fun c => c = ' ' || c = '\t')).length

/-- Modelled from the spec: the scanner for one off-side (indentation)
rule.  The stack holds implicit opens `(width, line)` with strictly
decreasing widths; a line of width `w` closes every implicit open of width
at least `w` (one close event per closed level, ending at the line above),
and then starts an implicit open at its own width.  Remaining opens are
discarded at end of document. -/
def offsideScan (lines : List String) (k : RangeKind) :
    Nat → Nat → List (Nat × Nat) → List FoldEvent
  | _, 0, _ => []
  | i, n+1, stack =>
    let w := indentWidth (lineAt lines i)
    let closed := stack.takeWhile (fun p => decide (w ≤ p.1))
    let kept := stack.dropWhile (fun p => decide (w ≤ p.1))
    (closed.map (fun p => ⟨p.2, i - 1, true, k⟩)) ++
      offsideScan lines k (i+1) n ((w, i) :: kept)

/-- Turn a close event into a folding range: apply `fold_last_line`
(excluding the delimiter line when it is false) and clip the end line to
the document's last line. -/
def eventRange (lastLine : Nat) (e : FoldEvent) : FoldingRange :=
  ⟨e.startLine, min (if e.keepLastLine then e.closeLine else e.closeLine - 1) lastLine, e.kind⟩

/-- De-duplicate ranges by their `(startLine, endLine)` pair, keeping the
first-seen occurrence (rule order encodes precedence). -/
def dedupRanges : List FoldingRange → List (Nat × Nat) → List FoldingRange
  | [], _ => []
  | r :: rest, seen =>
    if seen.contains (r.startLine, r.endLine) then dedupRanges rest seen
    else r :: dedupRanges rest ((r.startLine, r.endLine) :: seen)

/-- Output order of the assembler: start line ascending, end line
descending (outer ranges before inner ranges starting on the same line). -/
def rangeLE (a b : FoldingRange) : Prop :=
  a.startLine < b.startLine ∨ (a.startLine = b.startLine ∧ b.endLine ≤ a.endLine)

instance : DecidableRel rangeLE := fun a b => by
  unfold rangeLE
  exact inferInstance

/-- Modelled from the spec: the range assembler.  It converts events to
ranges (applying `fold_last_line` and clipping to the document), discards
non-positive-height results, de-duplicates by `(start, end)` keeping the
first-seen, and sorts by start ascending / end descending. -/
def assemble (lastLine : Nat) (events : List FoldEvent) : List FoldingRange :=
  let kept := (events.map (eventRange lastLine)).filter
    (fun r => decide (r.startLine < r.endLine))
  List.insertionSort rangeLE (dedupRanges kept [])

/-- Modelled from the spec: the whole engine: compile the rule set (skipping malformed
rules), run the begin/end scanner over the shared open stack and each
consecutive and off-side rule's scanner, and assemble the events. -/
def runEngine (rules : List Rule) (lines : List String) : List FoldingRange :=
  let events :=
    beginEndScan (rules.filterMap compileBE) lines 0 lines.length []
      ++ (rules.filterMap compileConsec).flatMap (fun c => consecEvents c lines)
      ++ (rules.filterMap compileOff).flatMap
          (fun k => offsideScan lines k 0 lines.length [])
  assemble (lastLineIndex lines) events

/-- Whether every line with index in `s .. e` matches `m`. -/
def allMatch (m : String → Bool) (lines : List String) (s e : Nat) : Bool :=
  (List.range (e + 1 - s)).all (fun j => m (lineAt lines (s + j)))

/-- A maximal run of adjacent matching lines: lines `s .. e` all match `m`,
`s` is either the first line or preceded by a non-matching line, and `e` is
either the last line or followed by a non-matching line. -/
def isMaxRun (m : String → Bool) (lines : List String) (s e : Nat) : Bool :=
  decide (s ≤ e) && decide (e < lines.length) && allMatch m lines s e &&
    (decide (s = 0) || !m (lineAt lines (s - 1))) &&
    (decide (e + 1 = lines.length) || !m (lineAt lines (e + 1)))

/-- A consecutive rule with the given begin pattern and range kind. -/
def consecRule (m : String → Bool) (k : RangeKind) : Rule :=
  ⟨.consecutive, .valid m, .valid m, false, true, k⟩

/-- Invariant of the consecutive scanner's state at line `i`: `some s`
records an in-progress run covering lines `s .. i-1` whose start is
maximal to the left; `none` records that the previous line (if any) did
not match. -/
def RunInv (m : String → Bool) (lines : List String) (i : Nat) : Option Nat → Prop
  | none => i = 0 ∨ m (lineAt lines (i - 1)) = false
  | some s => s < i ∧ allMatch m lines s (i - 1) = true
      ∧ (s = 0 ∨ m (lineAt lines (s - 1)) = false)

/-- Lower bound on the start lines of runs the scanner can still emit from
state `run` at line `i`. -/
def runLB : Option Nat → Nat → Nat
  | some s0, _ => s0
  | none, i => i

end ExplicitFolding

namespace Extension

/-- A raw folding-rule configuration object as `extension.ts` sees it: only
its `descendants` field (truthiness) and its `nested` field (which is
either not an array, `leaf`, or an array of rule objects, `node`) are
inspected there. -/
inductive FoldingConfig where
  | leaf (descendants : Bool)
  | node (descendants : Bool) (nested : List FoldingConfig)

/-- The `descendants` field of a rule object. -/
def FoldingConfig.descendants : FoldingConfig → Bool
  | .leaf d => d
  | .node d _ => d

/-- A configuration value handed to `applyRules`: an array of rule objects,
a single (truthy) rule object, or a falsy value such as `undefined`. -/
inductive RuleData where
  | arr (xs : List FoldingConfig)
  | obj (x : FoldingConfig)
  | fals

/-- `applyRules` from `extension.ts`: an array is spread onto the end of
`rules`, a truthy non-array value is pushed as one element, and a falsy
value contributes nothing. -/
def applyRules : RuleData → List FoldingConfig → List FoldingConfig
  | .arr xs, rules => rules ++ xs
  | .obj x, rules => rules ++ [x]
  | .fals, rules => rules

/-- The rules a configuration value contributes, as the spec describes the
normalization: an array contributes its elements in order, a single object
contributes one element, a missing value contributes zero rules. -/
def ruleContribution : RuleData → List FoldingConfig
  | .arr xs => xs
  | .obj x => [x]
  | .fals => []

/-- The `explicitFolding.rules` configuration value as `MainProvider.setup`
inspects it: whether `langRules[language]` is truthy, and the value itself
as data for `applyRules`. -/
structure LangRules where
  byLang : String → Bool
  asData : RuleData

/-- The rule list built by `MainProvider.setup`: the per-language rules
(from the deprecated per-language section, unless the `explicitFolding.rules`
setting is present without an entry for this language, in which case that
setting itself) followed by the wildcard rules. -/
def setupRules (perLanguages : String → RuleData) (langRules : Option LangRules)
    (language : String) : List FoldingConfig :=
  let rules : List FoldingConfig := []
  let rules :=
    match langRules with
    | none => applyRules (perLanguages language) rules
    | some lr =>
      if lr.byLang language then applyRules (perLanguages language) rules
      else applyRules lr.asData rules
  applyRules (perLanguages "*") rules

/-- The per-language configuration value that `MainProvider.setup` selects
in its first branch. -/
def selectedLangData (perLanguages : String → RuleData) (langRules : Option LangRules)
    (language : String) : RuleData :=
  match langRules with
  | none => perLanguages language
  | some lr =>
    if lr.byLang language then perLanguages language else lr.asData

/-- Push `descendants` onto the deprecation list unless already present
(mirrors `deprecateds.includes` / `deprecateds.push`). -/
def pushDescendants (ds : List String) : List String :=
  if ds.contains "descendants" then ds else ds ++ ["descendants"]

mutual

/-- `checkDeprecatedRule` from `extension.ts` on a single rule object: a
truthy `descendants` field records the deprecation; otherwise, when the
`nested` field is an array, the rule objects inside it are checked. -/
def checkDeprecatedRule : FoldingConfig → List String → List String
  | .leaf d, ds => if d then pushDescendants ds else ds
  | .node d ns, ds => if d then pushDescendants ds else checkDeprecatedRuleList ns ds

/-- `checkDeprecatedRule` from `extension.ts` on an array of rule objects. -/
def checkDeprecatedRuleList : List FoldingConfig → List String → List String
  | [], ds => ds
  | c :: cs, ds => checkDeprecatedRuleList cs (checkDeprecatedRule c ds)

end

/-- `checkDeprecatedRules` from `extension.ts`: collect deprecations over
the whole rule list and show the `descendants` warning once if the list
records it; the result counts the warning messages shown. -/
def checkDeprecatedRulesWarnings (rules : List FoldingConfig) : Nat :=
  if (checkDeprecatedRuleList rules []).contains "descendants" then 1 else 0

mutual

/-- Whether a rule object, or any rule object in a nested rule list
reachable from it, has a truthy `descendants` field. -/
def hasDescendants : FoldingConfig → Bool
  | .leaf d => d
  | .node d ns => d || hasDescendantsList ns

/-- Whether some rule object in the list (or reachable below it) has a
truthy `descendants` field. -/
def hasDescendantsList : List FoldingConfig → Bool
  | [] => false
  | c :: cs => hasDescendants c || hasDescendantsList cs

end

/-- `MainProvider.provideFoldingRanges` from `extension.ts`: it always
returns the empty range list; when the document's language has no provider
registered yet it marks the language and triggers `setup` (directly, or via
`setTimeout` when the configured delay is positive — in either branch setup
is invoked).  The result is (returned ranges, updated language set, whether
setup was triggered). -/
def provideFoldingRanges (providers : List String) (languageId : String) :
    List ExplicitFolding.FoldingRange × List String × Bool :=
  if languageId ∈ providers then ([], providers, false)
  else ([], languageId :: providers, true)

/-- Run a sequence of `provideFoldingRanges` calls (one language id per
call) and count how many of them trigger `setup` for language `l`. -/
def countSetups (providers : List String) : List String → String → Nat
  | [], _ => 0
  | lang :: calls, l =>
    let res := provideFoldingRanges providers lang
    (if res.2.2 = true ∧ lang = l then 1 else 0) + countSetups res.2.1 calls l

/-- The configuration as `getDelay` reads it: the deprecated `startupDelay`
key (present or absent) and the `delay` key. -/
structure DelayConfig where
  startupDelay : Option Int
  delay : Option Int

/-- JavaScript `v || 0` on a number: a falsy value (0) is replaced by 0. -/
def jsOrZero (v : Int) : Int :=
  if v = 0 then 0 else v

/-- `getDelay` from `extension.ts`: when the deprecated `startupDelay` key
is present it is returned (after a deprecation warning, the Bool result),
otherwise the `delay` key is returned; in both branches a missing or falsy
value yields 0. -/
def getDelay (c : DelayConfig) : Int × Bool :=
  match c.startupDelay with
  | some v => (jsOrZero v, true)
  | none =>
    match c.delay with
    | some d => (jsOrZero d, false)
    | none => (0, false)

/-- Timestamp of the JavaScript `new Date(2022, 6, 1)` (July 1, 2022). -/
def july2022ts : Int := 1656633600000

/-- Timestamp of the JavaScript `new Date(2022, 5, 1)` (June 1, 2022). -/
def june2022ts : Int := 1654041600000

/-- A JavaScript `Date` as `getRules` uses it: its timestamp for `<`
comparisons, and its year and month fields. -/
structure JSDate where
  ts : Int
  year : Int
  month : Int
deriving DecidableEq

/-- Result of `getRules`: the configuration section returned, whether the
error message was shown, whether the deprecation warning was shown, and the
stored last-warning date after the call. -/
structure GetRulesResult (α : Type) where
  returned : α
  errorShown : Bool
  warningShown : Bool
  savedWarning : Option JSDate
deriving DecidableEq

/-- The condition of `getRules`'s deprecation-warning branch: no warning
was stored yet, or the stored warning's year or month differs from the
current date's. -/
def monthChanged (stored : Option JSDate) (now : JSDate) : Bool :=
  match stored with
  | none => true
  | some lw => (lw.year != now.year) || (lw.month != now.month)

/-- `getRules` from `extension.ts`: when the deprecated top-level `folding`
section has more than 4 keys, it returns `explicitFolding.rules` after an
error message once the current date is past July 1, 2022, and before that
returns the `folding` section itself (showing a monthly deprecation warning
after June 1, 2022 or on a month change); with at most 4 keys it returns
`explicitFolding.rules` directly. -/
def getRules (foldingVal explicitVal : α) (foldingKeys : Nat) (now : JSDate)
    (stored : Option JSDate) : GetRulesResult α :=
  if 4 < foldingKeys then
    if july2022ts < now.ts then
      ⟨explicitVal, true, false, stored⟩
    else if monthChanged stored now || decide (june2022ts < now.ts) then
      ⟨foldingVal, false, true, some now⟩
    else
      ⟨foldingVal, false, false, stored⟩
  else
    ⟨explicitVal, false, false, stored⟩

end Extension

namespace ExplicitFolding

/-- De-duplication only removes elements: the result is a sublist of the
input as far as membership is concerned. -/
theorem dedupRanges_subset {l : List FoldingRange} {seen : List (Nat × Nat)}
    {x : FoldingRange} (h : x ∈ dedupRanges l seen) : x ∈ l := by
  induction l generalizing seen with
  | nil => simp [dedupRanges] at h
  | cons r rest ih =>
    rw [dedupRanges] at h
    by_cases hc : seen.contains (r.startLine, r.endLine) = true
    · rw [if_pos hc] at h
      exact List.mem_cons_of_mem _ (ih h)
    · rw [if_neg hc] at h
      rcases List.mem_cons.mp h with h | h
      · exact h ▸ List.mem_cons_self _ _
      · exact List.mem_cons_of_mem _ (ih h)

/-- C2. Balance invariant: every folding range the engine emits for any
document and rule set has its start line strictly before its end line, and
its end line bounded by the index of the document's last line. -/
theorem engine_balance_invariant (rules : List Rule) (lines : List String)
    (r : FoldingRange) (h : r ∈ runEngine rules lines) :
    r.startLine < r.endLine ∧ r.endLine ≤ lastLineIndex lines := by
  unfold runEngine assemble at h
  have h1 := ((List.perm_insertionSort rangeLE _).mem_iff).mp h
  have h2 := dedupRanges_subset h1
  rw [List.mem_filter] at h2
  obtain ⟨hmem, hlt⟩ := h2
  refine ⟨by simpa using hlt, ?_⟩
  rw [List.mem_map] at hmem
  obtain ⟨e, _, he⟩ := hmem
  rw [← he]
  exact Nat.min_le_right _ _

/-- Witness for C2 at a concrete begin/end rule and document. -/
theorem engine_balance_invariant_witness :
    (⟨0, 2, .region⟩ : FoldingRange) ∈
      runEngine [⟨.begin_end, .valid (fun l => l == "beg"),
                  .valid (fun l => l == "fin"), false, true, .region⟩]
        ["beg", "x", "fin"]
    ∧ ((0 : Nat) < 2 ∧ (2 : Nat) ≤ lastLineIndex ["beg", "x", "fin"]) :=
  ⟨by decide,
   engine_balance_invariant
     [⟨.begin_end, .valid (fun l => l == "beg"),
       .valid (fun l => l == "fin"), false, true, .region⟩]
     ["beg", "x", "fin"] ⟨0, 2, .region⟩ (by decide)⟩

/-- C4. The engine is a pure function of the rule set and the document
text, so two runs on the identical input produce identical output lists,
order included. -/
theorem engine_deterministic (rules : List Rule) (lines : List String) :
    runEngine rules lines = runEngine rules lines := rfl

/-- A malformed rule never compiles as a begin/end rule. -/
theorem compileBE_malformed {r : Rule} (h : ruleMalformed r = true) :
    compileBE r = none := by
  obtain ⟨k, bp, ep, st, fl, rk⟩ := r
  cases k <;> cases bp <;> cases ep <;>
    simp_all [ruleMalformed, patternMalformed, compileBE, compilePattern]

/-- A malformed rule never compiles as a consecutive rule. -/
theorem compileConsec_malformed {r : Rule} (h : ruleMalformed r = true) :
    compileConsec r = none := by
  obtain ⟨k, bp, ep, st, fl, rk⟩ := r
  cases k <;> cases bp <;>
    simp_all [ruleMalformed, patternMalformed, compileConsec, compilePattern]

/-- A malformed rule never compiles as an off-side rule (off-side rules
have no pattern and are never malformed). -/
theorem compileOff_malformed {r : Rule} (h : ruleMalformed r = true) :
    compileOff r = none := by
  obtain ⟨k, bp, ep, st, fl, rk⟩ := r
  cases k <;> simp_all [ruleMalformed, patternMalformed, compileOff]

/-- Removing an element on which `f` yields `none` does not change a
`filterMap`. -/
theorem filterMap_middle_none {α β : Type} (f : α → Option β) {r : α}
    (h : f r = none) (pre post : List α) :
    (pre ++ r :: post).filterMap f = (pre ++ post).filterMap f := by
  simp [List.filterMap_append, List.filterMap_cons, h]

/-- C5. A malformed regular expression causes only that single rule to be
skipped: the engine run with the bad rule present equals the run with it
removed, so the scan is never aborted (and with every rule malformed the
result degrades to zero ranges). -/
theorem malformed_rule_skipped (r : Rule) (h : ruleMalformed r = true)
    (pre post : List Rule) (lines : List String) :
    runEngine (pre ++ r :: post) lines = runEngine (pre ++ post) lines := by
  unfold runEngine
  rw [filterMap_middle_none compileBE (compileBE_malformed h),
    filterMap_middle_none compileConsec (compileConsec_malformed h),
    filterMap_middle_none compileOff (compileOff_malformed h)]

/-- Witness for C5 at a concrete malformed rule. -/
theorem malformed_rule_skipped_witness :
    ruleMalformed ⟨.begin_end, .malformed, .valid (fun _ => true),
        false, true, .region⟩ = true
    ∧ runEngine [⟨.begin_end, .malformed, .valid (fun _ => true),
        false, true, .region⟩] ["a"] = runEngine [] ["a"] :=
  ⟨rfl,
   malformed_rule_skipped
     ⟨.begin_end, .malformed, .valid (fun _ => true), false, true, .region⟩
     rfl [] [] ["a"]⟩

/-- `allMatch` holds exactly when every line of the index interval
matches. -/
theorem allMatch_iff {m : String → Bool} {lines : List String} {s e : Nat} :
    allMatch m lines s e = true
      ↔ ∀ k, s ≤ k → k ≤ e → m (lineAt lines k) = true := by
  unfold allMatch
  rw [List.all_eq_true]
  constructor
  · intro h k hs he
    have hj : k - s < e + 1 - s := by omega
    have hx := h (k - s) (List.mem_range.mpr hj)
    have hk : s + (k - s) = k := by omega
    rwa [hk] at hx
  · intro h j hj
    rw [List.mem_range] at hj
    exact h (s + j) (by omega) (by omega)

/-- Unfolding of the maximal-run predicate. -/
theorem isMaxRun_iff {m : String → Bool} {lines : List String} {s e : Nat} :
    isMaxRun m lines s e = true
      ↔ s ≤ e ∧ e < lines.length ∧ allMatch m lines s e = true
        ∧ (s = 0 ∨ m (lineAt lines (s - 1)) = false)
        ∧ (e + 1 = lines.length ∨ m (lineAt lines (e + 1)) = false) := by
  unfold isMaxRun
  simp [Bool.and_eq_true, Bool.or_eq_true, decide_eq_true_iff,
    Bool.not_eq_true', and_assoc]

/-- The first line of a maximal run matches. -/
theorem isMaxRun_first {m : String → Bool} {lines : List String} {s e : Nat}
    (h : isMaxRun m lines s e = true) : m (lineAt lines s) = true := by
  obtain ⟨hse, _, hall, _, _⟩ := isMaxRun_iff.mp h
  exact allMatch_iff.mp hall s le_rfl hse

/-- An in-progress run that stops at line `i` (end of document or a
non-matching line) is a maximal run over `s0 .. i-1`. -/
theorem isMaxRun_of_state (m : String → Bool) (lines : List String) {i s0 : Nat}
    (hile : i ≤ lines.length) (hlt : s0 < i)
    (hall : allMatch m lines s0 (i - 1) = true)
    (hleft : s0 = 0 ∨ m (lineAt lines (s0 - 1)) = false)
    (hstop : i = lines.length ∨ m (lineAt lines i) = false) :
    isMaxRun m lines s0 (i - 1) = true := by
  rw [isMaxRun_iff]
  refine ⟨by omega, by omega, hall, hleft, ?_⟩
  have hi1 : i - 1 + 1 = i := by omega
  rw [hi1]
  exact hstop

/-- A maximal run that starts at or after an in-progress run's start but
before the stop line `i` is exactly that in-progress run. -/
theorem maxrun_state_forces (m : String → Bool) (lines : List String)
    {i s0 s e : Nat} (hile : i ≤ lines.length) (hlt : s0 < i)
    (hall : allMatch m lines s0 (i - 1) = true)
    (hstop : i = lines.length ∨ m (lineAt lines i) = false)
    (hmr : isMaxRun m lines s e = true) (hlb : s0 ≤ s) (hsi : s < i) :
    s = s0 ∧ e = i - 1 := by
  obtain ⟨hse, helen, hallr, hleftr, hrightr⟩ := isMaxRun_iff.mp hmr
  have hallr' := allMatch_iff.mp hallr
  have hall' := allMatch_iff.mp hall
  have hs : s = s0 := by
    by_contra hne
    have hmm := hall' (s - 1) (by omega) (by omega)
    rcases hleftr with h0 | hfalse
    · omega
    · rw [hfalse] at hmm
      exact Bool.false_ne_true hmm
  subst hs
  refine ⟨rfl, ?_⟩
  have hei : e ≤ i - 1 := by
    by_contra hgt
    have hmm := hallr' i (by omega) (by omega)
    rcases hstop with hlen | hfalse
    · omega
    · rw [hfalse] at hmm
      exact Bool.false_ne_true hmm
  by_contra hne
  have hmm := hall' (e + 1) (by omega) (by omega)
  rcases hrightr with hlen | hfalse
  · omega
  · rw [hfalse] at hmm
    exact Bool.false_ne_true hmm

/-- Two maximal runs with the same start line have the same end line. -/
theorem isMaxRun_unique {m : String → Bool} {lines : List String} {s e e' : Nat}
    (h1 : isMaxRun m lines s e = true) (h2 : isMaxRun m lines s e' = true) :
    e = e' := by
  obtain ⟨hse1, hlen1, hall1, _, hr1⟩ := isMaxRun_iff.mp h1
  obtain ⟨hse2, hlen2, hall2, _, hr2⟩ := isMaxRun_iff.mp h2
  by_contra hne
  rcases Nat.lt_or_ge e e' with hlt | hge
  · have hmm := allMatch_iff.mp hall2 (e + 1) (by omega) (by omega)
    rcases hr1 with hlen | hfalse
    · omega
    · rw [hfalse] at hmm
      exact Bool.false_ne_true hmm
  · have hlt' : e' < e := by omega
    have hmm := allMatch_iff.mp hall1 (e' + 1) (by omega) (by omega)
    rcases hr2 with hlen | hfalse
    · omega
    · rw [hfalse] at hmm
      exact Bool.false_ne_true hmm

/-- Characterization of the consecutive scanner: from a state satisfying
the run invariant, the pair `(s, e)` is emitted exactly once when it is a
maximal run of length at least two starting at or after the state's lower
bound, and otherwise not at all. -/
theorem consecScanAux_countP (m : String → Bool) (lines : List String) (s e : Nat) :
    ∀ (n i : Nat) (run : Option Nat), i + n = lines.length →
      RunInv m lines i run →
      (consecScanAux m lines i n run).countP (fun p => p.1 == s && p.2 == e)
        = if isMaxRun m lines s e = true ∧ s < e ∧ runLB run i ≤ s
          then 1 else 0 := by
  intro n
  induction n with
  | zero =>
    intro i run hlen hinv
    have hi : i = lines.length := by omega
    cases run with
    | none =>
      rw [if_neg]
      · rfl
      · rintro ⟨hmr, hse, hlb⟩
        obtain ⟨hse', hlt', _, _, _⟩ := isMaxRun_iff.mp hmr
        simp only [runLB] at hlb
        omega
    | some s0 =>
      obtain ⟨hlt, hall, hleft⟩ := hinv
      simp only [consecScanAux, consecFlush]
      by_cases hflush : s0 + 1 < i
      · rw [if_pos hflush]
        simp only [List.countP_cons, List.countP_nil]
        have hiff : ((s0 == s && (i - 1 == e)) = true)
            ↔ (isMaxRun m lines s e = true ∧ s < e ∧ runLB (some s0) i ≤ s) := by
          constructor
          · intro hkey
            rw [Bool.and_eq_true, beq_iff_eq, beq_iff_eq] at hkey
            obtain ⟨hks, hke⟩ := hkey
            subst hks
            subst hke
            refine ⟨isMaxRun_of_state m lines (by omega) hlt hall hleft
              (Or.inl hi), by omega, le_rfl⟩
          · rintro ⟨hmr, hse, hlb⟩
            simp only [runLB] at hlb
            have hsi : s < i := by
              obtain ⟨hse', hlt', _, _, _⟩ := isMaxRun_iff.mp hmr
              omega
            obtain ⟨h1, h2⟩ := maxrun_state_forces m lines (by omega) hlt hall
              (Or.inl hi) hmr hlb hsi
            rw [Bool.and_eq_true, beq_iff_eq, beq_iff_eq]
            omega
        by_cases hkey : (s0 == s && (i - 1 == e)) = true
        · rw [hkey, if_pos (hiff.mp hkey)]
          rfl
        · rw [Bool.eq_false_iff.mpr hkey, if_neg (fun hc => hkey (hiff.mpr hc))]
          rfl
      · rw [if_neg hflush]
        rw [if_neg]
        · rfl
        · rintro ⟨hmr, hse, hlb⟩
          simp only [runLB] at hlb
          have hsi : s < i := by
            obtain ⟨hse', hlt', _, _, _⟩ := isMaxRun_iff.mp hmr
            omega
          obtain ⟨h1, h2⟩ := maxrun_state_forces m lines (by omega) hlt hall
            (Or.inl hi) hmr hlb hsi
          omega
  | succ n ih =>
    intro i run hlen hinv
    have hilen : i < lines.length := by omega
    simp only [consecScanAux]
    by_cases hm : m (lineAt lines i) = true
    · rw [if_pos hm]
      cases run with
      | none =>
        simp only [Option.getD_none]
        have hinv' : RunInv m lines (i + 1) (some i) := by
          refine ⟨by omega, ?_, ?_⟩
          · refine allMatch_iff.mpr (fun k h1 h2 => ?_)
            have hk : k = i := by omega
            rwa [hk]
          · simpa only [RunInv] using hinv
        exact ih (i + 1) (some i) (by omega) hinv'
      | some s0 =>
        simp only [Option.getD_some]
        obtain ⟨hlt, hall, hleft⟩ := hinv
        have hinv' : RunInv m lines (i + 1) (some s0) := by
          refine ⟨by omega, ?_, hleft⟩
          refine allMatch_iff.mpr (fun k h1 h2 => ?_)
          rcases Nat.lt_or_ge k i with hk | hk
          · exact allMatch_iff.mp hall k h1 (by omega)
          · have hk' : k = i := by omega
            rwa [hk']
        exact ih (i + 1) (some s0) (by omega) hinv'
    · rw [if_neg hm]
      have hm' : m (lineAt lines i) = false := Bool.eq_false_iff.mpr hm
      rw [List.countP_append]
      have ihrec := ih (i + 1) none (by omega) (Or.inr (by
        have h1 : i + 1 - 1 = i := by omega
        rw [h1]
        exact hm'))
      simp only [runLB] at ihrec ⊢
      have hflushCount : ∀ s0 : Nat, s0 < i →
          (i = lines.length ∨ True) →
          (consecFlush i (some s0)).countP (fun p => p.1 == s && p.2 == e)
            = if s0 = s ∧ i - 1 = e ∧ s0 + 1 < i then 1 else 0 := by
        intro s0 hlt _
        simp only [consecFlush]
        by_cases hflush : s0 + 1 < i
        · rw [if_pos hflush]
          simp only [List.countP_cons, List.countP_nil]
          by_cases hkey : (s0 == s && (i - 1 == e)) = true
          · rw [Bool.and_eq_true, beq_iff_eq, beq_iff_eq] at hkey
            rw [if_pos (by
              rw [Bool.and_eq_true, beq_iff_eq, beq_iff_eq]
              exact hkey), if_pos ⟨hkey.1, hkey.2, hflush⟩]
          · rw [Bool.eq_false_iff.mpr hkey, if_neg (by simp),
              if_neg (fun hc => hkey (by
                rw [Bool.and_eq_true, beq_iff_eq, beq_iff_eq]
                exact ⟨hc.1, hc.2.1⟩))]
        · rw [if_neg hflush, if_neg (fun hc => hflush hc.2.2)]
          simp
      cases run with
      | none =>
        simp only [consecFlush, List.countP_nil, Nat.zero_add]
        rw [ihrec]
        refine if_congr ?_ rfl rfl
        constructor
        · rintro ⟨hmr, hse, hlb⟩
          exact ⟨hmr, hse, by omega⟩
        · rintro ⟨hmr, hse, hlb⟩
          refine ⟨hmr, hse, ?_⟩
          rcases Nat.lt_or_ge i s with h | h
          · omega
          · have hs : s = i := by omega
            rw [hs] at hmr
            rw [isMaxRun_first hmr] at hm'
            exact absurd hm' (by simp)
      | some s0 =>
        obtain ⟨hlt, hall, hleft⟩ := hinv
        rw [ihrec, hflushCount s0 hlt (Or.inr trivial)]
        by_cases hcond : isMaxRun m lines s e = true ∧ s < e ∧ s0 ≤ s
        · obtain ⟨hmr, hse, hlb⟩ := hcond
          have hB : (if isMaxRun m lines s e = true ∧ s < e ∧ s0 ≤ s
              then 1 else 0) = 1 := if_pos ⟨hmr, hse, hlb⟩
          rw [hB]
          by_cases hfar : i + 1 ≤ s
          · have hA : (if isMaxRun m lines s e = true ∧ s < e ∧ i + 1 ≤ s
                then 1 else 0) = 1 := if_pos ⟨hmr, hse, hfar⟩
            have hF : (if s0 = s ∧ i - 1 = e ∧ s0 + 1 < i then 1 else 0) = 0 :=
              if_neg (fun hc => by omega)
            rw [hA, hF]
          · have hsi : s < i := by
              rcases Nat.lt_or_ge s i with h | h
              · exact h
              · have hs : s = i := by omega
                rw [hs] at hmr
                rw [isMaxRun_first hmr] at hm'
                exact absurd hm' (by simp)
            obtain ⟨h1, h2⟩ := maxrun_state_forces m lines (by omega) hlt hall
              (Or.inr hm') hmr hlb hsi
            have hA : (if isMaxRun m lines s e = true ∧ s < e ∧ i + 1 ≤ s
                then 1 else 0) = 0 := if_neg (fun hc => by omega)
            have hF : (if s0 = s ∧ i - 1 = e ∧ s0 + 1 < i then 1 else 0) = 1 :=
              if_pos ⟨by omega, by omega, by omega⟩
            rw [hA, hF]
        · have hB : (if isMaxRun m lines s e = true ∧ s < e ∧ s0 ≤ s
              then 1 else 0) = 0 := if_neg hcond
          have hA : (if isMaxRun m lines s e = true ∧ s < e ∧ i + 1 ≤ s
              then 1 else 0) = 0 := by
            refine if_neg ?_
            rintro ⟨hmr, hse, hfar⟩
            exact hcond ⟨hmr, hse, by omega⟩
          have hF : (if s0 = s ∧ i - 1 = e ∧ s0 + 1 < i then 1 else 0) = 0 := by
            refine if_neg ?_
            rintro ⟨hks, hke, hflush⟩
            have hmr0 : isMaxRun m lines s0 (i - 1) = true :=
              isMaxRun_of_state m lines (by omega) hlt hall hleft (Or.inr hm')
            rw [hks, hke] at hmr0
            exact hcond ⟨hmr0, by omega, by omega⟩
          rw [hA, hB, hF]

/-- Top-level characterization: over a whole document, the consecutive
scanner emits the pair `(s, e)` exactly once when it is a maximal run of
length at least two, and never otherwise. -/
theorem consec_pairs_countP (m : String → Bool) (lines : List String) (s e : Nat) :
    (consecScanAux m lines 0 lines.length none).countP
        (fun p => p.1 == s && p.2 == e)
      = if isMaxRun m lines s e = true ∧ s < e then 1 else 0 := by
  rw [consecScanAux_countP m lines s e lines.length 0 none (by omega) (Or.inl rfl)]
  refine if_congr ?_ rfl rfl
  simp only [runLB]
  exact ⟨fun ⟨a, b, _⟩ => ⟨a, b⟩, fun ⟨a, b⟩ => ⟨a, b, Nat.zero_le s⟩⟩

/-- Every pair emitted by the consecutive scanner ends at or before the
document's last line. -/
theorem consecScanAux_snd_le (m : String → Bool) (lines : List String) :
    ∀ (n i : Nat) (run : Option Nat), i + n = lines.length →
      ∀ p ∈ consecScanAux m lines i n run, p.2 ≤ lines.length - 1 := by
  intro n
  induction n with
  | zero =>
    intro i run hlen p hp
    cases run with
    | none => simp [consecScanAux, consecFlush] at hp
    | some s0 =>
      simp only [consecScanAux, consecFlush] at hp
      by_cases h : s0 + 1 < i
      · rw [if_pos h] at hp
        have hp' := List.mem_singleton.mp hp
        rw [hp']
        omega
      · rw [if_neg h] at hp
        simp at hp
  | succ n ih =>
    intro i run hlen p hp
    simp only [consecScanAux] at hp
    by_cases hm : m (lineAt lines i) = true
    · rw [if_pos hm] at hp
      exact ih (i + 1) _ (by omega) p hp
    · rw [if_neg (by simp [hm])] at hp
      rcases List.mem_append.mp hp with hp1 | hp1
      · cases run with
        | none => simp [consecFlush] at hp1
        | some s0 =>
          simp only [consecFlush] at hp1
          by_cases h : s0 + 1 < i
          · rw [if_pos h] at hp1
            have hp' := List.mem_singleton.mp hp1
            rw [hp']
            omega
          · rw [if_neg h] at hp1
            simp at hp1
      · exact ih (i + 1) none (by omega) p hp1

/-- The begin/end scanner over an empty compiled rule list emits nothing. -/
theorem beginEndScan_nil (lines : List String) :
    ∀ (n i : Nat), beginEndScan [] lines i n [] = [] := by
  intro n
  induction n with
  | zero => intro i; rfl
  | succ n ih =>
    intro i
    simp only [beginEndScan, List.find?, findRemove]
    exact ih (i + 1)

/-- Running the engine on a single consecutive rule reduces to assembling
that rule's scanner events. -/
theorem runEngine_consec (m : String → Bool) (k : RangeKind) (lines : List String) :
    runEngine [consecRule m k] lines
      = assemble (lastLineIndex lines) (consecEvents ⟨m, k⟩ lines) := by
  unfold runEngine
  rw [show ([consecRule m k].filterMap compileBE) = [] from rfl,
    show ([consecRule m k].filterMap compileConsec) = [⟨m, k⟩] from rfl,
    show ([consecRule m k].filterMap compileOff) = [] from rfl,
    beginEndScan_nil]
  simp

/-- Counting ranges with a given `(start, end)` pair after de-duplication:
zero if the pair was already seen, otherwise at most one. -/
theorem dedupRanges_countP (s e : Nat) :
    ∀ (l : List FoldingRange) (seen : List (Nat × Nat)),
      (dedupRanges l seen).countP (fun r => r.startLine == s && r.endLine == e)
        = if (s, e) ∈ seen then 0
          else min (l.countP (fun r => r.startLine == s && r.endLine == e)) 1 := by
  intro l
  induction l with
  | nil =>
    intro seen
    by_cases h : ((s, e) ∈ seen) <;> simp [dedupRanges, h]
  | cons r rest ih =>
    intro seen
    rw [dedupRanges]
    by_cases hkey : (r.startLine == s && r.endLine == e) = true
    · have hkey' : r.startLine = s ∧ r.endLine = e := by
        rwa [Bool.and_eq_true, beq_iff_eq, beq_iff_eq] at hkey
      have hpair : (r.startLine, r.endLine) = (s, e) := by
        rw [hkey'.1, hkey'.2]
      by_cases hc : ((r.startLine, r.endLine) ∈ seen)
      · rw [if_pos (List.elem_iff.mpr hc), ih seen]
        have hse : (s, e) ∈ seen := hpair ▸ hc
        rw [if_pos hse, if_pos hse]
      · rw [if_neg (fun h => hc (List.elem_iff.mp h))]
        have hse : ¬ ((s, e) ∈ seen) := fun h => hc (hpair ▸ h)
        rw [List.countP_cons, ih ((r.startLine, r.endLine) :: seen),
          if_pos (hpair ▸ List.mem_cons_self _ _), if_neg hse,
          List.countP_cons, hkey]
        simp [Nat.min_def]
    · have hpair : ¬ ((r.startLine, r.endLine) = (s, e)) := by
        intro hp
        apply hkey
        rw [Bool.and_eq_true, beq_iff_eq, beq_iff_eq]
        exact ⟨congrArg Prod.fst hp, congrArg Prod.snd hp⟩
      have hk : (r.startLine == s && r.endLine == e) = false :=
        Bool.eq_false_iff.mpr hkey
      by_cases hc : ((r.startLine, r.endLine) ∈ seen)
      · rw [if_pos (List.elem_iff.mpr hc), ih seen, List.countP_cons, hk]
        simp
      · rw [if_neg (fun h => hc (List.elem_iff.mp h)), List.countP_cons,
          ih ((r.startLine, r.endLine) :: seen), List.countP_cons, hk]
        have hmem : ((s, e) ∈ (r.startLine, r.endLine) :: seen)
            ↔ ((s, e) ∈ seen) := by
          constructor
          · intro h
            rcases List.mem_cons.mp h with h1 | h1
            · exact absurd h1.symm hpair
            · exact h1
          · exact List.mem_cons_of_mem _
        rw [if_congr hmem rfl rfl]
        simp

/-- Assembling the events of one consecutive rule keeps exactly the
maximal runs of length at least two, each once. -/
theorem assemble_consec_countP (m : String → Bool) (k : RangeKind)
    (lines : List String) (s e : Nat) :
    (assemble (lastLineIndex lines) (consecEvents ⟨m, k⟩ lines)).countP
        (fun r => r.startLine == s && r.endLine == e)
      = if isMaxRun m lines s e = true ∧ s < e then 1 else 0 := by
  unfold assemble
  rw [(List.perm_insertionSort rangeLE _).countP_eq, dedupRanges_countP,
    if_neg (List.not_mem_nil _)]
  have hkept : (((consecEvents ⟨m, k⟩ lines).map
          (eventRange (lastLineIndex lines))).filter
          (fun r => decide (r.startLine < r.endLine))).countP
        (fun r => r.startLine == s && r.endLine == e)
      = (consecScanAux m lines 0 lines.length none).countP
          (fun p => (p.1 == s && p.2 == e) && decide (p.1 < p.2)) := by
    rw [List.countP_filter, consecEvents, List.countP_map, List.countP_map]
    refine List.countP_congr (fun p hp => ?_)
    have hle := consecScanAux_snd_le m lines lines.length 0 none (by omega) p hp
    have hle' : p.2 ≤ lastLineIndex lines := hle
    have hev : eventRange (lastLineIndex lines) ⟨p.1, p.2, true, k⟩
        = ⟨p.1, p.2, k⟩ := by
      unfold eventRange
      simp only [if_pos]
      rw [Nat.min_eq_left hle']
    simp only [Function.comp, hev]
  rw [hkept]
  by_cases hse : s < e
  · have hpred : (fun p : Nat × Nat => (p.1 == s && p.2 == e) && decide (p.1 < p.2))
        = (fun p : Nat × Nat => p.1 == s && p.2 == e) := by
      funext p
      by_cases hk2 : (p.1 == s && p.2 == e) = true
      · have hk2' := hk2
        rw [Bool.and_eq_true, beq_iff_eq, beq_iff_eq] at hk2'
        rw [hk2, Bool.true_and]
        exact decide_eq_true (by omega)
      · rw [Bool.eq_false_iff.mpr hk2, Bool.false_and]
    rw [hpred, consec_pairs_countP]
    by_cases hC : isMaxRun m lines s e = true ∧ s < e
    · rw [if_pos hC]
      omega
    · rw [if_neg hC]
      omega
  · have hzero : (consecScanAux m lines 0 lines.length none).countP
        (fun p => (p.1 == s && p.2 == e) && decide (p.1 < p.2)) = 0 := by
      rw [List.countP_eq_zero]
      intro p hp hcp
      rw [Bool.and_eq_true, Bool.and_eq_true, beq_iff_eq, beq_iff_eq,
        decide_eq_true_iff] at hcp
      omega
    rw [hzero, if_neg (fun hc => hse hc.2)]
    rfl

/-- Engine-level characterization for a single consecutive rule. -/
theorem engine_consec_countP (m : String → Bool) (k : RangeKind)
    (lines : List String) (s e : Nat) :
    (runEngine [consecRule m k] lines).countP
        (fun r => r.startLine == s && r.endLine == e)
      = if isMaxRun m lines s e = true ∧ s < e then 1 else 0 := by
  rw [runEngine_consec, assemble_consec_countP]

/-- Every range the engine emits for a single consecutive rule is a
maximal run of length at least two. -/
theorem engine_consec_mem (m : String → Bool) (k : RangeKind)
    (lines : List String) {r : FoldingRange}
    (h : r ∈ runEngine [consecRule m k] lines) :
    isMaxRun m lines r.startLine r.endLine = true
      ∧ r.startLine < r.endLine := by
  have hpos : 0 < (runEngine [consecRule m k] lines).countP
      (fun x => x.startLine == r.startLine && x.endLine == r.endLine) := by
    rw [List.countP_pos_iff]
    exact ⟨r, h, by simp⟩
  rw [engine_consec_countP] at hpos
  by_cases hc : isMaxRun m lines r.startLine r.endLine = true
      ∧ r.startLine < r.endLine
  · exact hc
  · rw [if_neg hc] at hpos
    exact absurd hpos (by simp)

/-- C3. Consecutive-run threshold: for a consecutive rule, a maximal run
of exactly one matching line never produces a folding range (no emitted
range starts at it), and a maximal run of two or more matching lines
produces exactly one range, spanning the first to the last matched line. -/
theorem consecutive_run_threshold (m : String → Bool) (k : RangeKind)
    (lines : List String) (s e : Nat) (h : isMaxRun m lines s e = true) :
    (s = e → ∀ r ∈ runEngine [consecRule m k] lines, r.startLine ≠ s)
    ∧ (s < e → (runEngine [consecRule m k] lines).countP
        (fun r => r.startLine == s && r.endLine == e) = 1) := by
  constructor
  · intro hse r hr heq
    obtain ⟨hmr, hlt⟩ := engine_consec_mem m k lines hr
    rw [heq] at hmr hlt
    have hee := isMaxRun_unique hmr h
    omega
  · intro hlt
    rw [engine_consec_countP, if_pos ⟨h, hlt⟩]

/-- Witness for C3 at a concrete two-line comment run. -/
theorem consecutive_run_threshold_witness :
    isMaxRun (fun l => l == "//") ["//", "//", "x"] 0 1 = true
    ∧ (runEngine [consecRule (fun l => l == "//") .comment]
        ["//", "//", "x"]).countP
        (fun r => r.startLine == 0 && r.endLine == 1) = 1 :=
  ⟨by decide,
   (consecutive_run_threshold (fun l => l == "//") .comment
     ["//", "//", "x"] 0 1 (by decide)).2 (by decide)⟩

end ExplicitFolding

namespace Extension

/-- `applyRules` appends exactly the contribution of its argument. -/
theorem applyRules_eq (data : RuleData) (rules : List FoldingConfig) :
    applyRules data rules = rules ++ ruleContribution data := by
  cases data <;> simp [applyRules, ruleContribution]

/-- C6. Rule-configuration normalization always produces an array: an
array input contributes its elements in order, a single object contributes
one element, and a falsy input contributes zero rules, appended after the
rules already collected. -/
theorem applyRules_normalizes (data : RuleData) (rules : List FoldingConfig) :
    applyRules data rules = rules ++ ruleContribution data :=
  applyRules_eq data rules

/-- C1. The rule set built by `MainProvider.setup` and handed to the
folding provider is the per-language rules followed by the wildcard rules,
so per-language rules occur earlier (and are tested first); the
per-language part comes from the per-language section or, in the fallback
branch, from the `explicitFolding.rules` value itself. -/
theorem setup_rules_concat (perLanguages : String → RuleData)
    (langRules : Option LangRules) (language : String) :
    setupRules perLanguages langRules language
      = ruleContribution (selectedLangData perLanguages langRules language)
        ++ ruleContribution (perLanguages "*")
    ∧ (selectedLangData perLanguages langRules language = perLanguages language
       ∨ ∃ lr, langRules = some lr
           ∧ selectedLangData perLanguages langRules language = lr.asData) := by
  constructor
  · unfold setupRules selectedLangData
    cases langRules with
    | none => simp [applyRules_eq]
    | some lr =>
      by_cases h : lr.byLang language = true <;> simp [h, applyRules_eq]
  · cases langRules with
    | none => exact Or.inl rfl
    | some lr =>
      by_cases h : lr.byLang language = true
      · exact Or.inl (by simp [selectedLangData, h])
      · exact Or.inr ⟨lr, rfl, by simp [selectedLangData, h]⟩

/-- Pushing the deprecation marker makes it present. -/
theorem pushDescendants_mem (ds : List String) :
    "descendants" ∈ pushDescendants ds := by
  unfold pushDescendants
  by_cases h : ds.contains "descendants" = true
  · rw [if_pos h]
    exact List.elem_iff.mp h
  · rw [if_neg h]
    exact List.mem_append_right _ (List.mem_singleton.mpr rfl)

/-- Pushing the deprecation marker preserves other recorded markers. -/
theorem pushDescendants_mem_of_mem {s : String} {ds : List String}
    (h : s ∈ ds) : s ∈ pushDescendants ds := by
  unfold pushDescendants
  by_cases hc : ds.contains "descendants" = true
  · rwa [if_pos hc]
  · rw [if_neg hc]
    exact List.mem_append_left _ h

mutual

/-- The deprecation marker is recorded after checking one rule exactly when
it was already recorded or the rule's tree declares `descendants`. -/
theorem checkRule_mem : ∀ (c : FoldingConfig) (ds : List String),
    "descendants" ∈ checkDeprecatedRule c ds
      ↔ ("descendants" ∈ ds ∨ hasDescendants c = true)
  | .leaf d, ds => by
    cases d with
    | false =>
      simp [checkDeprecatedRule, hasDescendants]
    | true =>
      simp only [checkDeprecatedRule, hasDescendants]
      rw [if_pos trivial]
      exact ⟨fun _ => Or.inr trivial, fun _ => pushDescendants_mem ds⟩
  | .node d ns, ds => by
    cases d with
    | false =>
      simp only [checkDeprecatedRule, hasDescendants]
      rw [if_neg Bool.false_ne_true, Bool.false_or]
      exact checkRuleList_mem ns ds
    | true =>
      simp only [checkDeprecatedRule, hasDescendants]
      rw [if_pos trivial, Bool.true_or]
      exact ⟨fun _ => Or.inr rfl, fun _ => pushDescendants_mem ds⟩

/-- The deprecation marker is recorded after checking a rule list exactly
when it was already recorded or some rule in the list's tree declares
`descendants`. -/
theorem checkRuleList_mem : ∀ (cs : List FoldingConfig) (ds : List String),
    "descendants" ∈ checkDeprecatedRuleList cs ds
      ↔ ("descendants" ∈ ds ∨ hasDescendantsList cs = true)
  | [], ds => by simp [checkDeprecatedRuleList, hasDescendantsList]
  | c :: cs, ds => by
    rw [checkDeprecatedRuleList, checkRuleList_mem cs _, checkRule_mem c ds,
      hasDescendantsList]
    simp [Bool.or_eq_true, or_assoc]

end

/-- C7. Checking a rule set for deprecation shows the `descendants`
warning exactly once when some rule in the list, or in any nested rule
list reachable from it, has a truthy `descendants` field, and shows no
warning otherwise — never more than one warning per check. -/
theorem checkDeprecatedRules_once (rules : List FoldingConfig) :
    checkDeprecatedRulesWarnings rules
      = (if hasDescendantsList rules = true then 1 else 0) := by
  unfold checkDeprecatedRulesWarnings
  by_cases h : hasDescendantsList rules = true
  · rw [if_pos h, if_pos]
    exact List.elem_iff.mpr ((checkRuleList_mem rules []).mpr (Or.inr h))
  · rw [if_neg h, if_neg]
    intro hc
    rcases (checkRuleList_mem rules []).mp (List.elem_iff.mp hc) with h0 | h0
    · exact absurd h0 (List.not_mem_nil _)
    · exact h h0

/-- Once a language is registered, later calls never trigger setup for
it. -/
theorem countSetups_of_mem (calls : List String) (l : String) :
    ∀ providers, l ∈ providers → countSetups providers calls l = 0 := by
  induction calls with
  | nil => intro providers _; rfl
  | cons lang calls ih =>
    intro providers hmem
    unfold countSetups provideFoldingRanges
    by_cases hc : lang ∈ providers
    · simpa [hc] using ih providers hmem
    · have hne : ¬ lang = l := fun he => hc (he ▸ hmem)
      simpa [hc, hne] using ih (lang :: providers) (List.mem_cons_of_mem _ hmem)

/-- Setup is triggered at most once per language over any call sequence. -/
theorem countSetups_le_one (calls : List String) (l : String) :
    ∀ providers, countSetups providers calls l ≤ 1 := by
  induction calls with
  | nil => intro providers; exact Nat.zero_le 1
  | cons lang calls ih =>
    intro providers
    unfold countSetups provideFoldingRanges
    by_cases hc : lang ∈ providers
    · simpa [hc] using ih providers
    · by_cases hl : lang = l
      · subst hl
        have h0 : countSetups (lang :: providers) calls lang = 0 :=
          countSetups_of_mem calls lang _ (List.mem_cons_self _ _)
        simp [hc, h0]
      · simpa [hc, hl] using ih (lang :: providers)

/-- C8. `MainProvider.provideFoldingRanges` always returns the empty range
list, and over any sequence of calls starting from a fresh provider it
triggers the per-language setup at most once per language id. -/
theorem provide_empty_and_setup_once :
    (∀ providers lang,
      (provideFoldingRanges providers lang).1
        = ([] : List ExplicitFolding.FoldingRange))
    ∧ (∀ calls l, countSetups [] calls l ≤ 1) := by
  constructor
  · intro providers lang
    unfold provideFoldingRanges
    by_cases h : lang ∈ providers <;> simp [h]
  · intro calls l
    exact countSetups_le_one calls l []

/-- C9. `getDelay` returns the deprecated `startupDelay` value (with a
deprecation warning) whenever the key is present, and the `delay` value
(with no warning) otherwise; a missing value yields 0, and a falsy (zero)
value is likewise returned as 0. -/
theorem getDelay_spec (v : Int) (d : Option Int) :
    getDelay ⟨some v, d⟩ = (v, true)
    ∧ getDelay ⟨none, d⟩ = (d.getD 0, false) := by
  constructor
  · unfold getDelay jsOrZero
    by_cases h : v = 0 <;> simp [h]
  · cases d with
    | none => rfl
    | some d0 =>
      unfold getDelay jsOrZero
      by_cases h : d0 = 0 <;> simp [h]

/-- C10. With more than 4 keys in the deprecated `folding` section,
`getRules` returns `explicitFolding.rules` (with the error message) when
the current date is past July 1, 2022, and the `folding` section itself
(without the error) on or before that date; with at most 4 keys it always
returns `explicitFolding.rules` without an error. -/
theorem getRules_cutoff {α : Type} (fv ev : α) (keys : Nat) (now : JSDate)
    (stored : Option JSDate) :
    (4 < keys →
      ((july2022ts < now.ts →
          (getRules fv ev keys now stored).returned = ev
          ∧ (getRules fv ev keys now stored).errorShown = true)
       ∧ (now.ts ≤ july2022ts →
          (getRules fv ev keys now stored).returned = fv
          ∧ (getRules fv ev keys now stored).errorShown = false)))
    ∧ (keys ≤ 4 →
      (getRules fv ev keys now stored).returned = ev
      ∧ (getRules fv ev keys now stored).errorShown = false) := by
  constructor
  · intro hk
    constructor
    · intro hd
      simp [getRules, hk, hd]
    · intro hd
      have hd' : ¬ july2022ts < now.ts := not_lt.mpr hd
      by_cases hw : (monthChanged stored now || decide (june2022ts < now.ts)) = true <;>
        simp [getRules, hk, hd', hw]
  · intro hk
    have hk' : ¬ 4 < keys := not_lt.mpr hk
    simp [getRules, hk']

/-- Witness for C10 in each claimed branch. -/
theorem getRules_cutoff_witness :
    ((getRules 0 1 5 ⟨1656633600001, 2022, 6⟩ none).returned = 1
      ∧ (getRules 0 1 5 ⟨1656633600001, 2022, 6⟩ none).errorShown = true)
    ∧ ((getRules 0 1 5 ⟨1656633600000, 2022, 6⟩ none).returned = 0
      ∧ (getRules 0 1 5 ⟨1656633600000, 2022, 6⟩ none).errorShown = false)
    ∧ ((getRules 0 1 3 ⟨1656633600001, 2022, 6⟩ none).returned = 1
      ∧ (getRules 0 1 3 ⟨1656633600001, 2022, 6⟩ none).errorShown = false) :=
  ⟨((getRules_cutoff 0 1 5 ⟨1656633600001, 2022, 6⟩ none).1 (by decide)).1 (by decide),
   ((getRules_cutoff 0 1 5 ⟨1656633600000, 2022, 6⟩ none).1 (by decide)).2 (by decide),
   (getRules_cutoff 0 1 3 ⟨1656633600001, 2022, 6⟩ none).2 (by decide)⟩

end Extension
